import Mathlib

namespace HostsSpec

/-- ASCII fragment of the whitespace class used by Python's regex `\s` and `str.strip`. -/
def isSpc (c : Char) : Bool :=
  c == ' ' || c == '\t' || c == '\n' || c == '\r' || c == '\x0b' || c == '\x0c'

/-- ASCII fragment of the character class `[\w.-]` from the hostname patterns. -/
def isWordC (c : Char) : Bool :=
  c.isAlphanum || c == '_' || c == '.' || c == '-'

/-- Python `str.strip()` restricted to ASCII whitespace. -/
def pyStrip (l : List Char) : List Char :=
  ((l.dropWhile isSpc).reverse.dropWhile isSpc).reverse

/-- One `\d{1,3}` group whose following context rejects further digits
(backtracking cannot succeed when the maximal digit run is longer than 3). -/
def octetStrict (s : List Char) : Option (List Char × List Char) :=
  let d := s.takeWhile Char.isDigit
  if 1 ≤ d.length ∧ d.length ≤ 3 then some (d, s.dropWhile Char.isDigit) else none

/-- Final `\d{1,3}` group of the second pattern's second address, which is followed by
`\s*(.*)`: the greedy group takes at most three digits and any surplus digits flow
into the suffix group. -/
def octetLoose (s : List Char) : Option (List Char × List Char) :=
  let d := s.takeWhile Char.isDigit
  if 1 ≤ d.length then some (d.take 3, d.drop 3 ++ s.dropWhile Char.isDigit) else none

def expectDot : List Char → Option (List Char)
  | '.' :: r => some r
  | _ => none

/-- The dotted quad `(\d{1,3}\.){3}\d{1,3}` in a context requiring whitespace next. -/
def quadStrict (s : List Char) : Option (List Char × List Char) := do
  let (d1, r1) ← octetStrict s
  let r1 ← expectDot r1
  let (d2, r2) ← octetStrict r1
  let r2 ← expectDot r2
  let (d3, r3) ← octetStrict r2
  let r3 ← expectDot r3
  let (d4, r4) ← octetStrict r3
  return (d1 ++ '.' :: (d2 ++ '.' :: (d3 ++ '.' :: d4)), r4)

/-- The dotted quad for the second address of pattern two, which is followed by `\s*(.*)`. -/
def quadLoose (s : List Char) : Option (List Char × List Char) := do
  let (d1, r1) ← octetStrict s
  let r1 ← expectDot r1
  let (d2, r2) ← octetStrict r1
  let r2 ← expectDot r2
  let (d3, r3) ← octetStrict r2
  let r3 ← expectDot r3
  let (d4, r4) ← octetLoose r3
  return (d1 ++ '.' :: (d2 ++ '.' :: (d3 ++ '.' :: d4)), r4)

/-- Index of the last character of `l` satisfying `Char.isAlpha`. -/
def lastAlphaIdx : List Char → Option Nat
  | [] => none
  | c :: r =>
    match lastAlphaIdx r with
    | some j => some (j + 1)
    | none => if c.isAlpha then some 0 else none

/-- Length of the match of the greedy group `[\w.-]+[a-zA-Z]` against the maximal
`[\w.-]` run `t`: one more than the largest index `i ≥ 1` with `t[i]` alphabetic. -/
def bestM (t : List Char) : Option Nat :=
  match t with
  | [] => none
  | _ :: rest => (lastAlphaIdx rest).map (· + 2)

/-- First pattern of `normalize_rule`. Returns capture groups 2 and 3. -/
def parse1 (rule : List Char) : Option (List Char × List Char) :=
  let r0 := rule.dropWhile isSpc
  match quadStrict r0 with
  | none => none
  | some (_, r4) =>
    if (r4.takeWhile isSpc).length = 0 then none
    else
      let r5 := r4.dropWhile isSpc
      let t := r5.takeWhile isWordC
      let rest := r5.dropWhile isWordC
      match bestM t with
      | none => none
      | some m => some (t.take m, (t.drop m ++ rest).takeWhile (fun c => c != '\n'))

/-- Second pattern of `normalize_rule`. Returns capture groups 2 and 3. -/
def parse2 (rule : List Char) : Option (List Char × List Char) :=
  let r0 := rule.dropWhile isSpc
  match quadStrict r0 with
  | none => none
  | some (_, r1) =>
    if (r1.takeWhile isSpc).length = 0 then none
    else
      match quadLoose (r1.dropWhile isSpc) with
      | none => none
      | some (q2, r3) => some (q2, (r3.dropWhile isSpc).takeWhile (fun c => c != '\n'))

/-- Third pattern of `normalize_rule`. Returns capture groups 1 and 2. -/
def parse3 (rule : List Char) : Option (List Char × List Char) :=
  let r0 := rule.dropWhile isSpc
  let t := r0.takeWhile isWordC
  let rest := r0.dropWhile isWordC
  match bestM t with
  | none => none
  | some m => some (t.take m, (t.drop m ++ rest).takeWhile (fun c => c != '\n'))

/-- Inner helper `normalize_response` of `helpers.normalize_rule`. -/
def normalizeResponse (targetIp : List Char) (keep : Bool) (hostname sfx : List Char) :
    List Char × List Char :=
  if 0 < targetIp.length then
    (hostname,
      (if keep ∧ sfx ≠ [] then (targetIp ++ ' ' :: hostname) ++ ' ' :: '#' :: sfx
        else targetIp ++ ' ' :: hostname) ++ ['\n'])
  else
    (hostname, hostname ++ ['\n'])

/-- Embedding of `helpers.normalize_rule`. First component: the returned pair
(`none` stands for the Python `(None, None)`); second component: the lines printed
to standard output. -/
def normalizeRule (rule targetIp : List Char) (keep : Bool) :
    Option (List Char × List Char) × List (List Char) :=
  match parse1 rule with
  | some (g2, g3) => (some (normalizeResponse targetIp keep (pyStrip (g2.map Char.toLower)) g3), [])
  | none =>
    match parse2 rule with
    | some (g2, g3) => (some (normalizeResponse targetIp keep (pyStrip g2) g3), [])
    | none =>
      match parse3 rule with
      | some (g1, g2) => (some (normalizeResponse targetIp keep (pyStrip (g1.map Char.toLower)) g2), [])
      | none => (none, [("==>").data ++ rule ++ ("<==").data])

/-- The statement `line.replace("\t+", " ")` of `write_final_file`: a literal
string replacement, so only the two-character sequence tab-plus is rewritten
(lone tabs and tab runs without a following plus sign are untouched). -/
def replaceTabPlus : List Char → List Char
  | [] => []
  | [c] => [c]
  | c :: d :: r =>
    if c = '\t' ∧ d = '+' then ' ' :: replaceTabPlus r
    else c :: replaceTabPlus (d :: r)

/-- Python `line.rstrip(" .")`. -/
def rstripSpDot (l : List Char) : List Char :=
  (l.reverse.dropWhile (fun c => c == ' ' || c == '.')).reverse

/-- The per-line preprocessing of `write_final_file` (tab-plus replacement followed
by the trailing space/period strip). -/
def preprocessLine (raw : List Char) : List Char :=
  rstripSpDot (replaceTabPlus raw)

/-- Python `line.find(c)`: index of the first occurrence, `none` for `-1`. -/
def pyFindIdx (target : Char) : List Char → Option Nat
  | [] => none
  | c :: r => if c = target then some 0 else (pyFindIdx target r).map (· + 1)

/-- Python slicing `line[:i]` where `i` comes from `find` (`none` encodes `-1`,
and `line[:-1]` drops the final character). -/
def pySliceTo (l : List Char) : Option Nat → List Char
  | some i => l.take i
  | none => l.dropLast

/-- Embedding of `helpers.strip_rule`. -/
def stripRule (l : List Char) (removeComments : Bool) : List Char :=
  if removeComments then pyStrip (pySliceTo l (pyFindIdx '#' l)) else l

/-- Python's substring test `p in l`. -/
def hasSub (p : List Char) : List Char → Bool
  | [] => p.isEmpty
  | c :: r => p.isPrefixOf (c :: r) || hasSub p r

/-- The settings fields of `write_final_file` that the loop reads.  The two
exclusion mechanisms (`matches_exclusions` on the stripped rule, and the
`re.search` loop over `settings["exclusions"]` on the line) are passed to the
loop as the opaque tests `mx` and `wv`; the claims about the loop hold for every
behaviour of those tests. -/
structure RunCfg where
  numberOfRules : Nat
  minimise : Bool
  emptyTargetIp : Bool
  targetIpSetting : List Char
deriving DecidableEq

/-- The line `target_ip = "" if settings["empty_target_ip"] else settings["target_ip"]`. -/
def RunCfg.targetIp (cfg : RunCfg) : List Char :=
  if cfg.emptyTargetIp then [] else cfg.targetIpSetting

/-- State of the `write_final_file` loop: the `hostnames` set (as a list), the
rule counter, and the data written so far.  Every written piece is recorded with
the hostname key it was deduplicated under (`none` for a verbatim pass-through). -/
structure MState where
  hostnames : List (List Char)
  count : Nat
  out : List (Option (List Char) × List Char)
deriving DecidableEq

/-- The four reserved names seeding the `hostnames` set in `write_final_file`. -/
def reservedHostnames : List (List Char) :=
  [("localhost").data, ("localhost.localdomain").data, ("local").data, ("broadcasthost").data]

/-- The rule-processing part of one iteration of the `write_final_file` loop
(everything after the pass-through test), acting on the preprocessed line. -/
def ruleStep (cfg : RunCfg) (mx wv : List Char → Bool) (st : MState) (line : List Char) :
    MState :=
  if hasSub [':', ':', '1'] line then st
  else
    let stripped := stripRule line cfg.minimise
    if stripped = [] ∨ mx stripped = true then st
    else if '@' ∈ stripped then st
    else
      match (normalizeRule stripped cfg.targetIp cfg.minimise).1 with
      | some (k, o) =>
        if k ∉ st.hostnames ∧ wv line = false then
          { hostnames := k :: st.hostnames, count := st.count + 1, out := st.out ++ [(some k, o)] }
        else st
      | none => st

/-- One full iteration of the `write_final_file` loop on a raw input line.
`none` models the uncaught `IndexError` of `line[0]` on a line that is empty
after preprocessing when `minimise` is off. -/
def lineStep (cfg : RunCfg) (mx wv : List Char → Bool) (st : MState) (raw : List Char) :
    Option MState :=
  let line := preprocessLine raw
  if cfg.minimise then some (ruleStep cfg mx wv st line)
  else
    match line with
    | [] => none
    | c :: _ =>
      if c = '#' ∨ isSpc c = true then some { st with out := st.out ++ [(none, line)] }
      else some (ruleStep cfg mx wv st line)

/-- Initial loop state of `write_final_file`. -/
def initState (cfg : RunCfg) : MState :=
  ⟨reservedHostnames, cfg.numberOfRules, []⟩

/-- The whole `write_final_file` loop over the staging stream. -/
def runMerge (cfg : RunCfg) (mx wv : List Char → Bool) (lines : List (List Char)) :
    Option MState :=
  lines.foldlM (lineStep cfg mx wv) (initState cfg)

/-- Hostname keys of the rules kept in an output trace. -/
def outKeys (out : List (Option (List Char) × List Char)) : List (List Char) :=
  out.filterMap Prod.fst

/-- The dot characters of the `dots` regex in `encodings.idna`. -/
def dotChar (c : Char) : Bool :=
  c == '.' || c == Char.ofNat 0x3002 || c == Char.ofNat 0xFF0E || c == Char.ofNat 0xFF61

/-- Punycode digit, lowercase as in `encodings.punycode`. -/
def pcDigit (d : Nat) : Char :=
  if d < 26 then Char.ofNat (97 + d) else Char.ofNat (22 + d)

/-- The threshold function `T(j, bias)` of RFC 3492 as coded in `encodings.punycode`. -/
def pcT (j bias : Nat) : Nat :=
  let r := 36 * (j + 1) - bias
  if r < 1 then 1 else if r > 26 then 26 else r

/-- Loop body of `generate_generalized_integer`; the quotient shrinks by a factor of
at least ten each round, so fuel `n + 1` always suffices. -/
def genIntAux : Nat → Nat → Nat → Nat → List Char
  | 0, _, _, _ => []
  | fuel + 1, n, bias, j =>
    let t := pcT j bias
    if n < t then [pcDigit n]
    else pcDigit (t + (n - t) % (36 - t)) :: genIntAux fuel ((n - t) / (36 - t)) bias (j + 1)

/-- `generate_generalized_integer(N, bias)` of `encodings.punycode`. -/
def genInt (n bias : Nat) : List Char :=
  genIntAux (n + 1) n bias 0

/-- While-loop of `adapt`; the delta shrinks by a factor of 35, so fuel `d + 1` suffices. -/
def adaptLoop : Nat → Nat → Nat → Nat
  | 0, d, k => k + 36 * d / (d + 38)
  | fuel + 1, d, k => if d > 455 then adaptLoop fuel (d / 35) (k + 36) else k + 36 * d / (d + 38)

/-- `adapt(delta, first, numchars)` of `encodings.punycode`. -/
def pcAdapt (delta : Nat) (first : Bool) (numchars : Nat) : Nat :=
  let d0 := if first then delta / 700 else delta / 2
  let d1 := d0 + d0 / numchars
  adaptLoop (d1 + 1) d1 0

/-- The insertion indices that `selective_find` yields for code point `ch`:
scanning the text, the counter advances past every character smaller than `ch`
and every earlier occurrence of `ch` itself. -/
def occIdxs (ch : Nat) : List Char → Nat → List Nat
  | [], _ => []
  | c :: r, idx =>
    if c.toNat = ch then idx :: occIdxs ch r (idx + 1)
    else if c.toNat < ch then occIdxs ch r (idx + 1)
    else occIdxs ch r idx

/-- The inner while-loop of `insertion_unsort`: one delta per occurrence. -/
def unsortGo : List Nat → Int → Int → List Int
  | [], _, _ => []
  | i :: rest, delta, old => (delta + ((i : Int) - old) - 1) :: unsortGo rest 0 (i : Int)

/-- Insert into a sorted duplicate-free list, for `sorted(extended)`. -/
def insUnique (n : Nat) : List Nat → List Nat
  | [] => [n]
  | m :: r => if n < m then n :: m :: r else if n = m then m :: r else m :: insUnique n r

/-- The sorted set of non-ASCII code points of the text (`segregate`). -/
def sortedExt (s : List Char) : List Nat :=
  ((s.map Char.toNat).filter (fun n => decide (128 ≤ n))).foldl (fun acc n => insUnique n acc) []

/-- Outer loop of `insertion_unsort` over the sorted extended code points. -/
def unsortChars (s : List Char) : List Nat → Int → Int → List Int
  | [], _, _ => []
  | ch :: rest, oldchar, oldindex =>
    let curlen := (s.filter (fun c => decide (c.toNat < ch))).length
    let idxs := occIdxs ch s 0
    let startDelta : Int := ((curlen : Int) + 1) * ((ch : Int) - oldchar)
    let newOld := match idxs.getLast? with | some i => (i : Int) | none => oldindex
    unsortGo idxs startDelta oldindex ++ unsortChars s rest (ch : Int) newOld

/-- `insertion_unsort(str, extended)` of `encodings.punycode`. -/
def insertionUnsort (s : List Char) : List Int :=
  unsortChars s (sortedExt s) 128 (-1)

/-- `generate_integers(baselen, deltas)` of `encodings.punycode`. -/
def genIntegers (baselen : Nat) : List Int → Nat → Nat → List Char
  | [], _, _ => []
  | d :: rest, points, bias =>
    let dn := d.toNat
    genInt dn bias ++ genIntegers baselen rest (points + 1) (pcAdapt dn (points == 0) (baselen + points + 1))

/-- `punycode_encode` of `encodings.punycode`. -/
def punycodeEncode (s : List Char) : List Char :=
  let base := s.filter (fun c => decide (c.toNat < 128))
  let ext := genIntegers base.length (insertionUnsort s) 0 72
  if base.isEmpty then ext else base ++ '-' :: ext

/-- The ACE prefix `xn--`. -/
def acePre : List Char := ['x', 'n', '-', '-']

/-- `encodings.idna.ToASCII`, with `nameprep` modelled as the identity.  That is
exact for the labels this development applies it to: `nameprep` deletes nothing
and case-folds nothing in labels made of lowercase ASCII together with U+0262,
and prohibits none of those characters. `none` models a raised `UnicodeError`. -/
def toASCII (label : List Char) : Option (List Char) :=
  if label.all (fun c => decide (c.toNat < 128)) then
    if 0 < label.length ∧ label.length < 64 then some label else none
  else
    if label.take 4 = acePre then none
    else
      let enc := acePre ++ punycodeEncode label
      if 0 < enc.length ∧ enc.length < 64 then some enc else none

/-- `encodings.idna.Codec.encode`: the empty fast path, the all-ASCII fast path
(split on `.`, inner labels of length 1 to 63, last label under 64), and the
general path (split on the dot regex, trailing-dot handling, `ToASCII` per label,
rejoin with `.`).  `none` models a raised `UnicodeError`. -/
def encodeIDNA (input : List Char) : Option (List Char) :=
  if input = [] then some []
  else if input.all (fun c => decide (c.toNat < 128)) then
    let labels := input.splitOn '.' 
    if (labels.dropLast).all (fun l => decide (0 < l.length ∧ l.length < 64)) ∧
        (labels.getLastD []).length < 64 then some input else none
  else
    let labels0 := input.splitOnP dotChar
    let tdot := (labels0.getLastD []).isEmpty
    let labels := if tdot then labels0.dropLast else labels0
    match labels.mapM toASCII with
    | none => none
    | some ls => some (List.intercalate ['.'] ls ++ (if tdot then ['.'] else []))

/-- Embedding of `helpers.determine_separator`. -/
def determineSeparator (l : List Char) : Option Char :=
  match pyFindIdx '\t' l, pyFindIdx ' ' l with
  | some t, some s => if s < t then some ' ' else some '\t'
  | some _, none => some '\t'
  | none, some _ => some ' '
  | none, none => none

/-- The while-loop of `domain_to_idna` searching from index 1 for the first
non-empty piece; `none` models the `IndexError` that the surrounding
`try` swallows. -/
def walkIdx : List (List Char) → Nat → Option Nat
  | [], _ => none
  | h :: r, i => if h.isEmpty then walkIdx r (i + 1) else some i

/-- The per-token body of `domain_to_idna` (helpers.py lines 387 to 397): when
the selected token carries an inline `#`, the text before the first `#` is
encoded and the comment (which starts at that first `#`, so that
`splited_line[index].split(comment)[0]` is exactly the text before it) is
reattached; the resulting token is then encoded as a whole. -/
def idnaTokenStep (tok : List Char) : Option (List Char) :=
  let step1 : Option (List Char) :=
    if '#' ∈ tok then
      match encodeIDNA (tok.takeWhile (fun c => c != '#')) with
      | none => none
      | some e => some (e ++ tok.dropWhile (fun c => c != '#'))
    else some tok
  match step1 with
  | none => none
  | some tok1 => encodeIDNA tok1

/-- Embedding of `helpers.domain_to_idna`.  `none` models an uncaught exception
(only `IndexError` is caught there, and that only around the token walk, so a
`UnicodeError` from the codec always propagates). -/
def domainToIdna (line : List Char) : Option (List Char) :=
  if line.head? = some '#' then some line
  else
    match determineSeparator line with
    | none => encodeIDNA line
    | some sep =>
      let parts := line.splitOn sep
      match walkIdx (parts.drop 1) 1 with
      | none => some (List.intercalate [sep] parts)
      | some i =>
        let tok := parts.getD i []
        match idnaTokenStep tok with
        | none => none
        | some tok2 => some (List.intercalate [sep] (parts.set i tok2))

/-- The non-ASCII domain of the encoder round-trip tests: U+0262 followed by `oogle.com`. -/
def gDomain : List Char := Char.ofNat 0x262 :: ("oogle.com").data

/-- Expected encoding of `gDomain`. -/
def gEncoded : List Char := ("xn--oogle-wmc.com").data

/-- The pass-through test of the loop (step at helpers.py line 546): `minimise`
off and the first character of the preprocessed line is `#` or whitespace.  The
code inspects only `line[0]`, so any line starting with whitespace satisfies it. -/
def isPassThru (cfg : RunCfg) (raw : List Char) : Prop :=
  cfg.minimise = false ∧
    match preprocessLine raw with
    | [] => False
    | c :: _ => c = '#' ∨ isSpc c = true

/-- Loop invariant of `write_final_file`: every emitted key is in the seen set,
the emitted keys are pairwise distinct, the reserved names are in the seen set,
and no emitted key is a reserved name. -/
def MInv (s : MState) : Prop :=
  (∀ k ∈ outKeys s.out, k ∈ s.hostnames) ∧ (outKeys s.out).Nodup ∧
    (∀ k ∈ reservedHostnames, k ∈ s.hostnames) ∧
    ∀ k ∈ outKeys s.out, k ∉ reservedHostnames

/-! Basic character facts. -/

theorem ne_of_toNat_ne {c d : Char} (h : c.toNat ≠ d.toNat) : c ≠ d :=
  fun he => h (congrArg Char.toNat he)

theorem isSpc_eq_false {c : Char}
    (h : c.toNat ≠ 32 ∧ c.toNat ≠ 9 ∧ c.toNat ≠ 10 ∧ c.toNat ≠ 13 ∧ c.toNat ≠ 11 ∧
      c.toNat ≠ 12) : isSpc c = false := by
  simp only [isSpc, Bool.or_eq_false_iff, beq_eq_false_iff_ne]
  obtain ⟨h1, h2, h3, h4, h5, h6⟩ := h
  exact ⟨⟨⟨⟨⟨ne_of_toNat_ne h1, ne_of_toNat_ne h2⟩, ne_of_toNat_ne h3⟩,
    ne_of_toNat_ne h4⟩, ne_of_toNat_ne h5⟩, ne_of_toNat_ne h6⟩

theorem isSpc_of_eq_true {c : Char} (h : isSpc c = true) :
    c.toNat = 32 ∨ c.toNat = 9 ∨ c.toNat = 10 ∨ c.toNat = 13 ∨ c.toNat = 11 ∨ c.toNat = 12 := by
  simp only [isSpc, Bool.or_eq_true, beq_iff_eq] at h
  rcases h with ((((h | h) | h) | h) | h) | h <;> subst h <;> simp

theorem word_ranges {c : Char} (h : isWordC c = true) :
    (65 ≤ c.toNat ∧ c.toNat ≤ 90) ∨ (97 ≤ c.toNat ∧ c.toNat ≤ 122) ∨
      (48 ≤ c.toNat ∧ c.toNat ≤ 57) ∨ c.toNat = 95 ∨ c.toNat = 46 ∨ c.toNat = 45 := by
  simp only [isWordC, Char.isAlphanum, Char.isAlpha, Char.isDigit, Char.isUpper,
    Char.isLower, Bool.or_eq_true, Bool.and_eq_true, decide_eq_true_eq, beq_iff_eq] at h
  rcases h with ((((⟨a, b⟩ | ⟨a, b⟩) | ⟨a, b⟩) | h) | h) | h
  · exact Or.inl ⟨a, b⟩
  · exact Or.inr (Or.inl ⟨a, b⟩)
  · exact Or.inr (Or.inr (Or.inl ⟨a, b⟩))
  · subst h; simp
  · subst h; simp
  · subst h; simp

theorem digit_range {c : Char} (h : c.isDigit = true) : 48 ≤ c.toNat ∧ c.toNat ≤ 57 := by
  simp only [Char.isDigit, Bool.and_eq_true, decide_eq_true_eq] at h
  exact h

theorem ofNat_plus32_toNat {n : Nat} (h1 : 65 ≤ n) (h2 : n ≤ 90) :
    (Char.ofNat (n + 32)).toNat = n + 32 := by
  interval_cases n <;> decide

theorem toLower_toNat (c : Char) :
    c.toLower.toNat = c.toNat ∨
      (65 ≤ c.toNat ∧ c.toNat ≤ 90 ∧ c.toLower.toNat = c.toNat + 32) := by
  rw [Char.toLower]
  by_cases h : c.toNat ≥ 65 ∧ c.toNat ≤ 90
  · right
    refine ⟨h.1, h.2, ?_⟩
    simp only [h, and_self, if_pos]
    exact ofNat_plus32_toNat h.1 h.2
  · left
    simp only [if_neg h]

theorem nl_toNat : ('\n' : Char).toNat = 10 := rfl

theorem word_char_ok {c : Char} (h : isWordC c = true) : isSpc c = false ∧ c ≠ '\n' := by
  have hr := word_ranges h
  refine ⟨isSpc_eq_false ?_, ne_of_toNat_ne ?_⟩
  · omega
  · rw [nl_toNat]; omega

theorem word_toLower_ok {c : Char} (h : isWordC c = true) :
    isSpc c.toLower = false ∧ c.toLower ≠ '\n' := by
  have hr := word_ranges h
  rcases toLower_toNat c with hl | ⟨h65, h90, hl⟩ <;>
    refine ⟨isSpc_eq_false ?_, ne_of_toNat_ne ?_⟩
  · omega
  · rw [nl_toNat]; omega
  · omega
  · rw [nl_toNat]; omega

theorem digit_char_ok {c : Char} (h : c.isDigit = true) : isSpc c = false ∧ c ≠ '\n' := by
  have hr := digit_range h
  refine ⟨isSpc_eq_false ?_, ne_of_toNat_ne ?_⟩
  · omega
  · rw [nl_toNat]; omega

/-! Basic list facts. -/

theorem dropWhile_all_false {p : Char → Bool} {l : List Char}
    (h : ∀ c ∈ l, p c = false) : l.dropWhile p = l := by
  cases l with
  | nil => rfl
  | cons c r =>
    rw [List.dropWhile_cons, if_neg]
    simp [h c (List.mem_cons_self c r)]

theorem pyStrip_eq_self {l : List Char} (h : ∀ c ∈ l, isSpc c = false) : pyStrip l = l := by
  unfold pyStrip
  rw [dropWhile_all_false h, dropWhile_all_false, List.reverse_reverse]
  intro c hc
  exact h c (List.mem_reverse.mp hc)

theorem mem_pyStrip {x : Char} {l : List Char} (h : x ∈ pyStrip l) : x ∈ l := by
  unfold pyStrip at h
  have h1 := List.mem_reverse.mp h
  have h2 := List.Sublist.mem h1 (List.dropWhile_sublist isSpc)
  have h3 := List.mem_reverse.mp h2
  exact (List.dropWhile_sublist isSpc).mem h3

theorem takeWhile_stops {p : Char → Bool} {a : List Char} {x : Char} (r : List Char)
    (ha : ∀ c ∈ a, p c = true) (hx : p x = false) :
    (a ++ x :: r).takeWhile p = a := by
  induction a with
  | nil => simp [List.takeWhile_cons, hx]
  | cons c a ih =>
    rw [List.cons_append, List.takeWhile_cons, if_pos (ha c (List.mem_cons_self c a))]
    rw [ih fun d hd => ha d (List.mem_cons_of_mem c hd)]

/-- Claim C1.  Each of the inputs `128.0.0.1`, `0.0.0 google` and
`0.1.2.3.4 foo/bar` fails all three patterns of `normalize_rule`, for every
target IP and every `keep_domain_comments` flag: the result is the Python
`(None, None)` and the printed diagnostic is exactly the input framed as
`==><rule><==`. -/
theorem normalize_rule_rejection_boundary (tip : List Char) (keep : Bool) :
    normalizeRule ("128.0.0.1").data tip keep = (none, [("==>128.0.0.1<==").data]) ∧
    normalizeRule ("0.0.0 google").data tip keep = (none, [("==>0.0.0 google<==").data]) ∧
    normalizeRule ("0.1.2.3.4 foo/bar").data tip keep =
      (none, [("==>0.1.2.3.4 foo/bar<==").data]) :=
  ⟨rfl, rfl, rfl⟩

/-- Claim C7 (evaluation at the failing inputs).  The preprocessing step of
`write_final_file` leaves a line containing a lone tab separator and trailing
periods before its newline entirely unchanged, because `replace("\t+", " ")`
replaces only the literal two-character sequence tab-plus, and
`rstrip(" .")` strips nothing from a line that still ends with its newline;
the trailing strip acts only on a line without a newline. -/
theorem preprocess_code_eval :
    preprocessLine ("1.2.3.4\texample.com..\n").data = ("1.2.3.4\texample.com..\n").data ∧
    preprocessLine ("0.0.0.0\tfoo.com").data = ("0.0.0.0\tfoo.com").data ∧
    preprocessLine ("a\t+b").data = ("a b").data ∧
    preprocessLine ("x..").data = ("x").data := by
  decide

/-- Claim C10.  `domain_to_idna` is not total: the codec's `UnicodeError`
escapes the `except IndexError` handler.  On `0.0.0.0 a..com` (an empty label)
and on a line whose domain label has 64 characters the embedded function
reports the propagated exception (`none`), although neither line is a comment. -/
theorem domain_to_idna_not_total :
    domainToIdna ("0.0.0.0 a..com").data = none ∧
    domainToIdna (("0.0.0.0 ").data ++ List.replicate 64 'a' ++ (".com").data) = none ∧
    ("0.0.0.0 a..com").data.head? ≠ some '#' := by
  refine ⟨by decide, by decide, by decide⟩

/-- Claim C2, counterexample.  On `127.0.0.1 example.com # hello` with
`keep_domain_comments=True` the extracted suffix ` # hello` is appended verbatim
after a fresh ` #`, so the output contains `# #`: the suffix's own leading `#`
is not stripped. -/
theorem normalize_rule_hash_duplicated :
    (normalizeRule ("127.0.0.1 example.com # hello").data ("0.0.0.0").data true).1 =
      some (("example.com").data, ("0.0.0.0 example.com # # hello\n").data) ∧
    hasSub ("# #").data ("0.0.0.0 example.com # # hello\n").data = true := by
  refine ⟨by decide, by decide⟩

/-- Claim C8, counterexample.  `strip_rule` does not trim surrounding whitespace
when `remove_comments` is false, and with `remove_comments=True` it loses the
final character of a line containing no `#` (Python `find` yields `-1` there and
`line[:-1]` chops the last rule character). -/
theorem strip_rule_claim_fails :
    stripRule (" example.org ").data false = (" example.org ").data ∧
    stripRule ("abc").data true = ("ab").data := by
  refine ⟨by decide, by decide⟩

/-! Inversion facts for the three patterns. -/

theorem nr_fst (tip : List Char) (keep : Bool) (hn sfx : List Char) :
    (normalizeResponse tip keep hn sfx).1 = hn := by
  unfold normalizeResponse
  split <;> rfl

theorem nr_snd_pos (tip : List Char) (keep : Bool) (hn sfx : List Char)
    (h : 0 < tip.length) :
    (normalizeResponse tip keep hn sfx).2 =
      (if keep ∧ sfx ≠ [] then (tip ++ ' ' :: hn) ++ ' ' :: '#' :: sfx
        else tip ++ ' ' :: hn) ++ ['\n'] := by
  unfold normalizeResponse
  rw [if_pos h]

theorem nr_snd_nil (keep : Bool) (hn sfx : List Char) :
    (normalizeResponse [] keep hn sfx).2 = hn ++ ['\n'] := rfl

theorem bestM_some {t : List Char} {m : Nat} (h : bestM t = some m) :
    t.take m ≠ [] ∧ 2 ≤ m := by
  unfold bestM at h
  match t, h with
  | c :: rest, h =>
    obtain ⟨j, _, rfl⟩ := Option.map_eq_some'.mp h
    exact ⟨by simp, by omega⟩

theorem suffix_no_newline {l : List Char} :
    ∀ c ∈ l.takeWhile (fun c => c != '\n'), c ≠ '\n' := by
  intro c hc
  have := List.mem_takeWhile_imp hc
  simpa using this

theorem parse1_facts {rule g2 g3 : List Char} (h : parse1 rule = some (g2, g3)) :
    (∀ c ∈ g2, isWordC c = true) ∧ g2 ≠ [] ∧ ∀ c ∈ g3, c ≠ '\n' := by
  simp only [parse1] at h
  split at h
  · exact absurd h (by simp)
  · split at h
    · exact absurd h (by simp)
    · split at h
      · exact absurd h (by simp)
      · rename_i m hm
        simp only [Option.some_inj, Prod.mk.injEq] at h
        obtain ⟨hg2, hg3⟩ := h
        subst hg2 hg3
        refine ⟨?_, (bestM_some hm).1, suffix_no_newline⟩
        intro c hc
        exact List.mem_takeWhile_imp ((List.take_sublist _ _).mem hc)

theorem parse3_facts {rule g2 g3 : List Char} (h : parse3 rule = some (g2, g3)) :
    (∀ c ∈ g2, isWordC c = true) ∧ g2 ≠ [] ∧ ∀ c ∈ g3, c ≠ '\n' := by
  simp only [parse3] at h
  split at h
  · exact absurd h (by simp)
  · rename_i m hm
    simp only [Option.some_inj, Prod.mk.injEq] at h
    obtain ⟨hg2, hg3⟩ := h
    subst hg2 hg3
    refine ⟨?_, (bestM_some hm).1, suffix_no_newline⟩
    intro c hc
    exact List.mem_takeWhile_imp ((List.take_sublist _ _).mem hc)

theorem octetStrict_digits {s d r : List Char} (h : octetStrict s = some (d, r)) :
    (∀ c ∈ d, c.isDigit = true) ∧ d ≠ [] := by
  simp only [octetStrict] at h
  split at h
  · rename_i hlen
    simp only [Option.some_inj, Prod.mk.injEq] at h
    obtain ⟨hd, _⟩ := h
    subst hd
    refine ⟨fun c hc => List.mem_takeWhile_imp hc, ?_⟩
    rw [← List.length_pos]
    omega
  · exact absurd h (by simp)

theorem octetLoose_digits {s d r : List Char} (h : octetLoose s = some (d, r)) :
    (∀ c ∈ d, c.isDigit = true) ∧ d ≠ [] := by
  simp only [octetLoose] at h
  split at h
  · rename_i hlen
    simp only [Option.some_inj, Prod.mk.injEq] at h
    obtain ⟨hd, _⟩ := h
    subst hd
    constructor
    · intro c hc
      exact List.mem_takeWhile_imp ((List.take_sublist _ _).mem hc)
    · have h3 : (s.takeWhile Char.isDigit).length ≠ 0 := by omega
      simp only [ne_eq, ← List.length_eq_zero, List.length_take]
      omega
  · exact absurd h (by simp)

theorem quadLoose_shape {s q r : List Char} (h : quadLoose s = some (q, r)) :
    (∀ c ∈ q, c.isDigit = true ∨ c = '.') ∧ q ≠ [] := by
  unfold quadLoose at h
  simp only [bind, Option.bind_eq_some, pure, Option.some_inj] at h
  obtain ⟨⟨d1, r1⟩, h1, x1, hx1, ⟨d2, r2⟩, h2, x2, hx2, ⟨d3, r3⟩, h3, x3, hx3,
    ⟨d4, r4⟩, h4, hq⟩ := h
  obtain ⟨hq1, hq2⟩ := Prod.mk.injEq .. ▸ hq
  subst hq1
  obtain ⟨hd1, hne1⟩ := octetStrict_digits h1
  obtain ⟨hd2, _⟩ := octetStrict_digits h2
  obtain ⟨hd3, _⟩ := octetStrict_digits h3
  obtain ⟨hd4, _⟩ := octetLoose_digits h4
  constructor
  · intro c hc
    simp only [List.mem_append, List.mem_cons] at hc
    rcases hc with hc | hc | hc
    · exact Or.inl (hd1 c hc)
    · exact Or.inr hc
    · rcases hc with hc | hc
      · exact Or.inl (hd2 c hc)
      · rcases hc with hc | hc | hc
        · exact Or.inr hc
        · exact Or.inl (hd3 c hc)
        · rcases hc with hc | hc
          · exact Or.inr hc
          · exact Or.inl (hd4 c hc)
  · simp [hne1]

theorem parse2_facts {rule g2 g3 : List Char} (h : parse2 rule = some (g2, g3)) :
    (∀ c ∈ g2, c.isDigit = true ∨ c = '.') ∧ g2 ≠ [] ∧ ∀ c ∈ g3, c ≠ '\n' := by
  simp only [parse2] at h
  split at h
  · exact absurd h (by simp)
  · split at h
    · exact absurd h (by simp)
    · split at h
      · exact absurd h (by simp)
      · rename_i q2 r3 hq
        simp only [Option.some_inj, Prod.mk.injEq] at h
        obtain ⟨hg2, hg3⟩ := h
        subst hg2 hg3
        obtain ⟨hd, hne⟩ := quadLoose_shape hq
        exact ⟨hd, hne, suffix_no_newline⟩

theorem dot_char_ok : isSpc '.' = false ∧ ('.' : Char) ≠ '\n' := by decide

/-- Inversion of a successful `normalize_rule`: the key and output come from
`normalize_response` applied to a hostname that is non-empty and free of
whitespace and newline characters, and a suffix free of newlines. -/
theorem normalizeRule_inv {rule tip : List Char} {keep : Bool} {k o : List Char}
    (h : (normalizeRule rule tip keep).1 = some (k, o)) :
    ∃ sfx, (∀ c ∈ sfx, c ≠ '\n') ∧ k ≠ [] ∧ (∀ c ∈ k, isSpc c = false ∧ c ≠ '\n') ∧
      o = (normalizeResponse tip keep k sfx).2 := by
  unfold normalizeRule at h
  split at h
  · rename_i g2 g3 hp
    obtain ⟨hw, hne, hnl⟩ := parse1_facts hp
    have hall : ∀ x ∈ g2.map Char.toLower, isSpc x = false ∧ x ≠ '\n' := by
      rintro x hx
      obtain ⟨c, hc, rfl⟩ := List.mem_map.mp hx
      exact word_toLower_ok (hw c hc)
    have hid : pyStrip (g2.map Char.toLower) = g2.map Char.toLower :=
      pyStrip_eq_self fun x hx => (hall x hx).1
    simp only [Option.some_inj] at h
    have hk : pyStrip (g2.map Char.toLower) = k := by
      have h1 := congrArg Prod.fst h
      rwa [nr_fst] at h1
    have ho2 := congrArg Prod.snd h
    subst hk
    refine ⟨g3, hnl, ?_, ?_, ho2.symm⟩
    · rw [hid]
      simp [hne]
    · intro c hc
      rw [hid] at hc
      exact hall c hc
  · split at h
    · rename_i g2 g3 hp
      obtain ⟨hw, hne, hnl⟩ := parse2_facts hp
      have hall : ∀ x ∈ g2, isSpc x = false ∧ x ≠ '\n' := by
        intro x hx
        rcases hw x hx with hd | hd
        · exact digit_char_ok hd
        · rw [hd]; exact dot_char_ok
      have hid : pyStrip g2 = g2 := pyStrip_eq_self fun x hx => (hall x hx).1
      simp only [Option.some_inj] at h
      have hk : pyStrip g2 = k := by
        have h1 := congrArg Prod.fst h
        rwa [nr_fst] at h1
      have ho2 := congrArg Prod.snd h
      subst hk
      refine ⟨g3, hnl, ?_, ?_, ho2.symm⟩
      · rw [hid]; exact hne
      · intro c hc
        rw [hid] at hc
        exact hall c hc
    · split at h
      · rename_i g2 g3 hp
        obtain ⟨hw, hne, hnl⟩ := parse3_facts hp
        have hall : ∀ x ∈ g2.map Char.toLower, isSpc x = false ∧ x ≠ '\n' := by
          rintro x hx
          obtain ⟨c, hc, rfl⟩ := List.mem_map.mp hx
          exact word_toLower_ok (hw c hc)
        have hid : pyStrip (g2.map Char.toLower) = g2.map Char.toLower :=
          pyStrip_eq_self fun x hx => (hall x hx).1
        simp only [Option.some_inj] at h
        have hk : pyStrip (g2.map Char.toLower) = k := by
          have h1 := congrArg Prod.fst h
          rwa [nr_fst] at h1
        have ho2 := congrArg Prod.snd h
        subst hk
        refine ⟨g3, hnl, ?_, ?_, ho2.symm⟩
        · rw [hid]
          simp [hne]
        · intro c hc
          rw [hid] at hc
          exact hall c hc
      · exact absurd h (by simp)

/-- Claim C2, amended.  For every rule accepted by one of the three patterns with a
non-empty target IP and `keep_domain_comments=True`, the output is
`"<target_ip> <key>"` followed, when the extracted suffix is non-empty, by a space,
one `#`, and the suffix appended verbatim (no leading `#` of the suffix is
stripped), and a final newline. -/
theorem normalize_rule_suffix_verbatim (rule tip k o : List Char) (hne : tip ≠ [])
    (h : (normalizeRule rule tip true).1 = some (k, o)) :
    ∃ sfx, (∀ c ∈ sfx, c ≠ '\n') ∧
      o = tip ++ ' ' :: k ++ (if sfx = [] then [] else ' ' :: '#' :: sfx) ++ ['\n'] := by
  obtain ⟨sfx, hnl, _, _, ho⟩ := normalizeRule_inv h
  refine ⟨sfx, hnl, ?_⟩
  rw [ho, nr_snd_pos _ _ _ _ (List.length_pos.mpr hne)]
  by_cases hs : sfx = []
  · simp [hs]
  · simp [hs]

/-- Witness for the amended claim C2 at `127.0.0.1 example.com # hello`. -/
theorem normalize_rule_suffix_verbatim_witness :
    ∃ sfx, (∀ c ∈ sfx, c ≠ '\n') ∧
      ("0.0.0.0 example.com # # hello\n").data = ("0.0.0.0").data ++ ' ' ::
        ("example.com").data ++ (if sfx = [] then [] else ' ' :: '#' :: sfx) ++ ['\n'] :=
  normalize_rule_suffix_verbatim ("127.0.0.1 example.com # hello").data ("0.0.0.0").data
    ("example.com").data ("0.0.0.0 example.com # # hello\n").data (by decide) (by decide)

/-- Claim C3.  Whenever `normalize_rule` succeeds (for a target IP without
whitespace characters), the output text ends in exactly one newline, the hostname
key is non-empty, with a non-empty target IP the first whitespace-delimited token
of the output is the target IP, and with an empty target IP the output is exactly
the key followed by one newline. -/
theorem normalize_rule_success_invariants (rule tip : List Char) (keep : Bool)
    (k o : List Char) (h : (normalizeRule rule tip keep).1 = some (k, o))
    (htip : ∀ c ∈ tip, isSpc c = false) :
    (∃ p, o = p ++ ['\n'] ∧ '\n' ∉ p) ∧ k ≠ [] ∧
      (tip ≠ [] → o.takeWhile (fun c => !(isSpc c)) = tip) ∧
      (tip = [] → o = k ++ ['\n']) := by
  obtain ⟨sfx, hnl, hk, hkc, ho⟩ := normalizeRule_inv h
  by_cases ht : tip = []
  · subst ht
    rw [nr_snd_nil] at ho
    exact ⟨⟨k, ho, fun hc => (hkc '\n' hc).2 rfl⟩, hk, fun hcon => absurd rfl hcon,
      fun _ => ho⟩
  · have hlen : 0 < tip.length := List.length_pos.mpr ht
    rw [nr_snd_pos _ _ _ _ hlen] at ho
    have htip' : ∀ c ∈ tip, (!(isSpc c)) = true := fun c hc => by simp [htip c hc]
    have hsp : (!(isSpc ' ')) = false := by decide
    have hnotin : ∀ tail : List Char, (∀ c ∈ tail, c ≠ '\n') → '\n' ∉ tip ++ ' ' :: tail := by
      intro tail htail hmem
      rcases List.mem_append.mp hmem with hmem | hmem
      · have := htip '\n' hmem
        simp [isSpc] at this
      · rcases List.mem_cons.mp hmem with hmem | hmem
        · exact absurd hmem (by decide)
        · exact htail '\n' hmem rfl
    split at ho
    · refine ⟨⟨(tip ++ ' ' :: k) ++ ' ' :: '#' :: sfx, ho, ?_⟩, hk, fun _ => ?_,
        fun hcon => absurd hcon ht⟩
      · rw [show (tip ++ ' ' :: k) ++ ' ' :: '#' :: sfx =
            tip ++ ' ' :: (k ++ ' ' :: '#' :: sfx) by simp]
        apply hnotin
        intro c hc
        rcases List.mem_append.mp hc with hc | hc
        · exact (hkc c hc).2
        · rcases List.mem_cons.mp hc with hc | hc
          · subst hc; decide
          · rcases List.mem_cons.mp hc with hc | hc
            · subst hc; decide
            · exact hnl c hc
      · rw [ho, show ((tip ++ ' ' :: k) ++ ' ' :: '#' :: sfx) ++ ['\n'] =
            tip ++ ' ' :: (k ++ ' ' :: '#' :: sfx ++ ['\n']) by simp]
        exact takeWhile_stops _ htip' hsp
    · refine ⟨⟨tip ++ ' ' :: k, ho, ?_⟩, hk, fun _ => ?_, fun hcon => absurd hcon ht⟩
      · apply hnotin
        intro c hc
        exact (hkc c hc).2
      · rw [ho, show (tip ++ ' ' :: k) ++ ['\n'] = tip ++ ' ' :: (k ++ ['\n']) by simp]
        exact takeWhile_stops _ htip' hsp

/-- Witness for claim C3 at `127.0.0.1 1.google.com foo` with target `8.8.8.8`. -/
theorem normalize_rule_success_invariants_witness :
    (∃ p, ("8.8.8.8 1.google.com\n").data = p ++ ['\n'] ∧ '\n' ∉ p) ∧
      ("1.google.com").data ≠ [] ∧
      (("8.8.8.8").data ≠ [] →
        ("8.8.8.8 1.google.com\n").data.takeWhile (fun c => !(isSpc c)) = ("8.8.8.8").data) ∧
      (("8.8.8.8").data = [] → ("8.8.8.8 1.google.com\n").data = ("1.google.com").data ++ ['\n']) :=
  normalize_rule_success_invariants ("127.0.0.1 1.google.com foo").data ("8.8.8.8").data
    false ("1.google.com").data ("8.8.8.8 1.google.com\n").data (by decide) (by decide)

/-! Facts about `find` and slicing, for `strip_rule`. -/

theorem findIdx_of_not_mem {t : Char} {l : List Char} (h : t ∉ l) :
    pyFindIdx t l = none := by
  induction l with
  | nil => rfl
  | cons c r ih =>
    simp only [pyFindIdx]
    rw [if_neg fun hc => h (by rw [← hc]; exact List.mem_cons_self c r),
      ih fun hm => h (List.mem_cons_of_mem c hm)]
    rfl

theorem findIdx_mem {t : Char} {l : List Char} (h : t ∈ l) :
    ∃ j, pyFindIdx t l = some j := by
  induction l with
  | nil => cases h
  | cons c r ih =>
    simp only [pyFindIdx]
    by_cases hc : c = t
    · exact ⟨0, by rw [if_pos hc]⟩
    · have hr : t ∈ r := by
        rcases List.mem_cons.mp h with h | h
        · exact absurd h.symm hc
        · exact h
      obtain ⟨j, hj⟩ := ih hr
      exact ⟨j + 1, by rw [if_neg hc, hj]; rfl⟩

theorem slice_find_of_mem {t : Char} {l : List Char} (h : t ∈ l) :
    pySliceTo l (pyFindIdx t l) = l.takeWhile (fun c => c != t) := by
  induction l with
  | nil => cases h
  | cons c r ih =>
    by_cases hc : c = t
    · subst hc
      simp [pyFindIdx, pySliceTo, List.takeWhile_cons]
    · have hr : t ∈ r := by
        rcases List.mem_cons.mp h with h | h
        · exact absurd h.symm hc
        · exact h
      obtain ⟨j, hj⟩ := findIdx_mem hr
      simp only [pyFindIdx, if_neg hc, hj, Option.map_some']
      rw [List.takeWhile_cons, if_pos (by simp [Ne.symm]; exact fun hcc => hc hcc)]
      simp only [pySliceTo, List.take_succ_cons]
      rw [← ih hr, hj]
      rfl

/-- Claim C8, amended.  `strip_rule` returns the line unchanged when
`remove_comments` is false (no trimming); with `remove_comments=True` it returns
the text before the first `#`, whitespace-trimmed, and when the line contains no
`#` it drops the final character before trimming; in that mode the result never
contains `#` (but it can be empty for non-comment lines, and it can lose a rule
character). -/
theorem strip_rule_characterization (l : List Char) :
    stripRule l false = l ∧
    ('#' ∈ l → stripRule l true = pyStrip (l.takeWhile (fun c => c != '#'))) ∧
    ('#' ∉ l → stripRule l true = pyStrip l.dropLast) ∧
    '#' ∉ stripRule l true := by
  refine ⟨rfl, ?_, ?_, ?_⟩
  · intro h
    unfold stripRule
    rw [if_pos rfl, slice_find_of_mem h]
  · intro h
    unfold stripRule
    rw [if_pos rfl, findIdx_of_not_mem h]
    rfl
  · intro hmem
    unfold stripRule at hmem
    rw [if_pos rfl] at hmem
    have h1 := mem_pyStrip hmem
    by_cases h : '#' ∈ l
    · rw [slice_find_of_mem h] at h1
      have := List.mem_takeWhile_imp h1
      simp at this
    · rw [findIdx_of_not_mem h] at h1
      exact h ((List.dropLast_sublist l).mem h1)

/-- Witness for the amended claim C8 at concrete lines. -/
theorem strip_rule_characterization_witness :
    stripRule ("x # y").data true = pyStrip (("x # y").data.takeWhile (fun c => c != '#')) ∧
    stripRule ("abc").data true = pyStrip ("abc").data.dropLast :=
  ⟨(strip_rule_characterization ("x # y").data).2.1 (by decide),
   (strip_rule_characterization ("abc").data).2.2.1 (by decide)⟩

/-! Substring facts for the `"::1" in line` test. -/

theorem hasSub_cons (p : List Char) (c : Char) (r : List Char) :
    hasSub p (c :: r) = (p.isPrefixOf (c :: r) || hasSub p r) := rfl

theorem hasSub_iff {p l : List Char} : hasSub p l = true ↔ ∃ a b, l = a ++ p ++ b := by
  induction l with
  | nil =>
    simp only [hasSub, List.isEmpty_iff]
    constructor
    · intro h
      exact ⟨[], [], by simp [h]⟩
    · rintro ⟨a, b, hab⟩
      have := hab.symm
      rw [List.append_eq_nil] at this
      obtain ⟨h1, _⟩ := this
      rw [List.append_eq_nil] at h1
      exact h1.2
  | cons c r ih =>
    simp only [hasSub, Bool.or_eq_true, ih, List.isPrefixOf_iff_prefix]
    constructor
    · rintro (⟨t, ht⟩ | ⟨a, b, rfl⟩)
      · exact ⟨[], t, by simp [← ht]⟩
      · exact ⟨c :: a, b, by simp⟩
    · rintro ⟨a, b, hab⟩
      cases a with
      | nil =>
        left
        exact ⟨b, by simpa using hab.symm⟩
      | cons x a' =>
        right
        simp only [List.cons_append, List.cons.injEq] at hab
        exact ⟨a', b, hab.2⟩

theorem replace_no_tab {q : List Char} (hq : ∀ x ∈ q, x ≠ '\t') (b : List Char) :
    replaceTabPlus (q ++ b) = q ++ replaceTabPlus b := by
  induction q with
  | nil => simp
  | cons x q' ih =>
    have hx : x ≠ '\t' := hq x (List.mem_cons_self x q')
    cases hqb : q' ++ b with
    | nil =>
      obtain ⟨rfl, rfl⟩ := List.append_eq_nil.mp hqb
      simp [replaceTabPlus]
    | cons y rest =>
      rw [List.cons_append, hqb, replaceTabPlus.eq_3,
        if_neg (fun hcd => hx hcd.1), ← hqb,
        ih fun z hz => hq z (List.mem_cons_of_mem x hz)]
      simp

theorem hasSub_replaceTabPlus {p : List Char} (h1 : '\t' ∉ p) (h2 : '+' ∉ p) :
    ∀ l, hasSub p l = true → hasSub p (replaceTabPlus l) = true := by
  by_cases hp : p = []
  · subst hp
    intro l _
    cases hl : replaceTabPlus l with
    | nil => rfl
    | cons c r => simp [hasSub, List.isPrefixOf]
  · obtain ⟨x, p', rfl⟩ : ∃ x p', p = x :: p' := by
      cases p with
      | nil => exact absurd rfl hp
      | cons x p' => exact ⟨x, p', rfl⟩
    have hx1 : x ≠ '\t' := fun hc => h1 (hc ▸ List.mem_cons_self x p')
    have hx2 : x ≠ '+' := fun hc => h2 (hc ▸ List.mem_cons_self x p')
    suffices H : ∀ n l, l.length ≤ n → hasSub (x :: p') l = true →
        hasSub (x :: p') (replaceTabPlus l) = true from
      fun l => H l.length l le_rfl
    intro n
    induction n with
    | zero =>
      intro l hl h
      have hl0 : l = [] := List.length_eq_zero.mp (Nat.le_zero.mp hl)
      subst hl0
      exact h
    | succ n ih =>
      intro l hl h
      match l with
      | [] => exact h
      | [c] => simpa [replaceTabPlus] using h
      | c :: d :: r =>
        rw [replaceTabPlus.eq_3]
        by_cases hcd : c = '\t' ∧ d = '+'
        · rw [if_pos hcd]
          obtain ⟨rfl, rfl⟩ := hcd
          have hr : hasSub (x :: p') r = true := by
            rw [hasSub_cons, Bool.or_eq_true] at h
            rcases h with h | h
            · exfalso
              simp only [List.isPrefixOf, Bool.and_eq_true, beq_iff_eq] at h
              exact hx1 h.1
            · rw [hasSub_cons, Bool.or_eq_true] at h
              rcases h with h | h
              · exfalso
                simp only [List.isPrefixOf, Bool.and_eq_true, beq_iff_eq] at h
                exact hx2 h.1
              · exact h
          have hrec := ih r (by simp at hl ⊢; omega) hr
          rw [hasSub_cons, Bool.or_eq_true]
          exact Or.inr hrec
        · rw [if_neg hcd]
          rw [hasSub_cons, Bool.or_eq_true] at h
          rcases h with h | h
          · obtain ⟨t, ht⟩ := List.isPrefixOf_iff_prefix.mp h
            have heq : replaceTabPlus (c :: d :: r) = (x :: p') ++ replaceTabPlus t := by
              rw [← ht]
              exact replace_no_tab (fun z hz => fun hc => h1 (hc ▸ hz)) t
            rw [replaceTabPlus.eq_3, if_neg hcd] at heq
            rw [heq]
            apply hasSub_iff.mpr
            exact ⟨[], replaceTabPlus t, by simp⟩
          · have hrec := ih (d :: r) (by simp at hl ⊢; omega) h
            rw [hasSub_cons, Bool.or_eq_true]
            exact Or.inr hrec

theorem hasSub_rstrip {p : List Char} {c0 : Char} (hl : p.getLast? = some c0)
    (hc : (c0 == ' ' || c0 == '.') = false) {l : List Char}
    (h : hasSub p l = true) : hasSub p (rstripSpDot l) = true := by
  obtain ⟨a, b, rfl⟩ := hasSub_iff.mp h
  obtain ⟨rest, hrest⟩ : ∃ rest, p.reverse = c0 :: rest := by
    have hrev : p.reverse.head? = some c0 := by rw [List.head?_reverse, hl]
    cases hpr : p.reverse with
    | nil => rw [hpr] at hrev; simp at hrev
    | cons y ys =>
      rw [hpr] at hrev
      simp only [List.head?_cons, Option.some_inj] at hrev
      exact ⟨ys, by rw [hrev]⟩
  unfold rstripSpDot
  rw [show (a ++ p ++ b).reverse = b.reverse ++ (p.reverse ++ a.reverse) by simp,
    List.dropWhile_append]
  split
  · rw [hrest, List.cons_append, List.dropWhile_cons, if_neg (by simp [hc])]
    apply hasSub_iff.mpr
    refine ⟨a, [], ?_⟩
    rw [show c0 :: (rest ++ a.reverse) = p.reverse ++ a.reverse by rw [hrest]; rfl]
    simp
  · apply hasSub_iff.mpr
    refine ⟨a, (List.dropWhile (fun c => c == ' ' || c == '.') b.reverse).reverse, ?_⟩
    simp

theorem hasSub_preprocess {p : List Char} {c0 : Char} (h1 : '\t' ∉ p) (h2 : '+' ∉ p)
    (hl : p.getLast? = some c0) (hc : (c0 == ' ' || c0 == '.') = false) {raw : List Char}
    (h : hasSub p raw = true) : hasSub p (preprocessLine raw) = true :=
  hasSub_rstrip hl hc (hasSub_replaceTabPlus h1 h2 raw h)

/-! Case analysis for one loop iteration. -/

theorem ruleStep_cases (cfg : RunCfg) (mx wv : List Char → Bool) (st : MState)
    (line : List Char) :
    ruleStep cfg mx wv st line = st ∨
    ∃ k o, k ∉ st.hostnames ∧ ruleStep cfg mx wv st line =
      ⟨k :: st.hostnames, st.count + 1, st.out ++ [(some k, o)]⟩ := by
  simp only [ruleStep]
  split
  · exact Or.inl rfl
  · split
    · exact Or.inl rfl
    · split
      · exact Or.inl rfl
      · split
        · rename_i k o _
          split
          · rename_i hcond
            exact Or.inr ⟨k, o, hcond.1, rfl⟩
          · exact Or.inl rfl
        · exact Or.inl rfl

theorem lineStep_cases {cfg : RunCfg} {mx wv : List Char → Bool} {st : MState}
    {raw : List Char} {st' : MState} (h : lineStep cfg mx wv st raw = some st') :
    st' = { st with out := st.out ++ [(none, preprocessLine raw)] } ∨
    st' = ruleStep cfg mx wv st (preprocessLine raw) := by
  simp only [lineStep] at h
  split at h
  · exact Or.inr (Option.some_inj.mp h).symm
  · split at h
    · exact absurd h (by simp)
    · split at h
      · exact Or.inl (Option.some_inj.mp h).symm
      · exact Or.inr (Option.some_inj.mp h).symm

theorem outKeys_append_none (out : List (Option (List Char) × List Char)) (l : List Char) :
    outKeys (out ++ [(none, l)]) = outKeys out := by
  simp [outKeys]

theorem outKeys_append_some (out : List (Option (List Char) × List Char))
    (k o : List Char) : outKeys (out ++ [(some k, o)]) = outKeys out ++ [k] := by
  simp [outKeys]

theorem step_mono {cfg : RunCfg} {mx wv : List Char → Bool} {st : MState}
    {raw : List Char} {st' : MState} (h : lineStep cfg mx wv st raw = some st') :
    ∀ x ∈ st.hostnames, x ∈ st'.hostnames := by
  rcases lineStep_cases h with h1 | h1
  · rw [h1]
    exact fun x hx => hx
  · rcases ruleStep_cases cfg mx wv st (preprocessLine raw) with h2 | ⟨k, o, _, h2⟩ <;>
      rw [h1, h2]
    · exact fun x hx => hx
    · exact fun x hx => List.mem_cons_of_mem _ hx

theorem step_inv {cfg : RunCfg} {mx wv : List Char → Bool} {st : MState}
    {raw : List Char} {st' : MState} (h : lineStep cfg mx wv st raw = some st')
    (hi : MInv st) : MInv st' := by
  obtain ⟨hi1, hi2, hi3, hi4⟩ := hi
  rcases lineStep_cases h with h1 | h1
  · rw [h1]
    exact ⟨by rw [outKeys_append_none]; exact hi1, by rw [outKeys_append_none]; exact hi2,
      hi3, by rw [outKeys_append_none]; exact hi4⟩
  · rcases ruleStep_cases cfg mx wv st (preprocessLine raw) with h2 | ⟨k, o, hk, h2⟩
    · rw [h1, h2]
      exact ⟨hi1, hi2, hi3, hi4⟩
    · rw [h1, h2]
      refine ⟨?_, ?_, ?_, ?_⟩
      · intro x hx
        rw [outKeys_append_some] at hx
        rcases List.mem_append.mp hx with hx | hx
        · exact List.mem_cons_of_mem _ (hi1 x hx)
        · rw [List.mem_singleton.mp hx]
          exact List.mem_cons_self _ _
      · rw [outKeys_append_some]
        refine hi2.append (List.nodup_singleton k) ?_
        intro x hx hxk
        rw [List.mem_singleton.mp hxk] at hx
        exact hk (hi1 k hx)
      · exact fun x hx => List.mem_cons_of_mem _ (hi3 x hx)
      · intro x hx
        rw [outKeys_append_some] at hx
        rcases List.mem_append.mp hx with hx | hx
        · exact hi4 x hx
        · rw [List.mem_singleton.mp hx]
          exact fun hres => hk (hi3 k hres)

theorem run_inv (cfg : RunCfg) (mx wv : List Char → Bool) :
    ∀ (lines : List (List Char)) (s s' : MState),
      List.foldlM (lineStep cfg mx wv) s lines = some s' → MInv s →
      MInv s' ∧ ∀ x ∈ s.hostnames, x ∈ s'.hostnames := by
  intro lines
  induction lines with
  | nil =>
    intro s s' h hi
    rw [List.foldlM_nil] at h
    obtain rfl := Option.some_inj.mp h
    exact ⟨hi, fun x hx => hx⟩
  | cons a l ih =>
    intro s s' h hi
    rw [List.foldlM_cons] at h
    simp only [bind, Option.bind_eq_some] at h
    obtain ⟨s1, h1, h2⟩ := h
    obtain ⟨hia, hma⟩ := ih s1 s' h2 (step_inv h1 hi)
    exact ⟨hia, fun x hx => hma x (step_mono h1 x hx)⟩

/-- Claim C4.  For every staging stream and every settings configuration (with
arbitrary exclusion tests), in the body produced by the `write_final_file` loop
each hostname key is emitted at most once; no reserved local hostname
(`localhost`, `localhost.localdomain`, `local`, `broadcasthost`) is ever emitted
as a kept rule's key; every emitted key is recorded in the seen-hostname set;
the set contains its four seed names at the end; and each loop step only grows
the set. -/
theorem write_final_file_dedup (cfg : RunCfg) (mx wv : List Char → Bool)
    (lines : List (List Char)) (fin : MState)
    (h : runMerge cfg mx wv lines = some fin) :
    (outKeys fin.out).Nodup ∧
    (∀ k ∈ outKeys fin.out, k ∉ reservedHostnames) ∧
    (∀ k ∈ outKeys fin.out, k ∈ fin.hostnames) ∧
    (∀ k ∈ reservedHostnames, k ∈ fin.hostnames) ∧
    (∀ (st : MState) (raw : List Char) (st' : MState),
      lineStep cfg mx wv st raw = some st' → ∀ x ∈ st.hostnames, x ∈ st'.hostnames) := by
  have hinit : MInv (initState cfg) :=
    ⟨by simp [initState, outKeys], by simp [initState, outKeys],
      fun k hk => hk, by simp [initState, outKeys]⟩
  obtain ⟨⟨h1, h2, h3, h4⟩, _⟩ := run_inv cfg mx wv lines _ fin h hinit
  exact ⟨h2, h4, h1, h3, fun st raw st' hs => step_mono hs⟩

/-- Witness for claim C4 on a concrete three-line stream with a duplicate rule
and a reserved-name rule. -/
theorem write_final_file_dedup_witness :
    (runMerge ⟨0, false, false, ("0.0.0.0").data⟩ (fun _ => false) (fun _ => false)
        [("0.0.0.0 example.com\n").data, ("0.0.0.0 example.com\n").data,
          ("0.0.0.0 localhost\n").data] =
      some ⟨("example.com").data :: reservedHostnames, 1,
        [(some ("example.com").data, ("0.0.0.0 example.com\n").data)]⟩) ∧
    ((outKeys [(some ("example.com").data, ("0.0.0.0 example.com\n").data)]).Nodup ∧
      (∀ k ∈ outKeys [(some ("example.com").data, ("0.0.0.0 example.com\n").data)],
        k ∉ reservedHostnames) ∧
      (∀ k ∈ outKeys [(some ("example.com").data, ("0.0.0.0 example.com\n").data)],
        k ∈ ("example.com").data :: reservedHostnames) ∧
      (∀ k ∈ reservedHostnames, k ∈ ("example.com").data :: reservedHostnames) ∧
      (∀ (st : MState) (raw : List Char) (st' : MState),
        lineStep ⟨0, false, false, ("0.0.0.0").data⟩ (fun _ => false) (fun _ => false)
            st raw = some st' → ∀ x ∈ st.hostnames, x ∈ st'.hostnames)) :=
  ⟨by decide,
    write_final_file_dedup ⟨0, false, false, ("0.0.0.0").data⟩ (fun _ => false)
      (fun _ => false)
      [("0.0.0.0 example.com\n").data, ("0.0.0.0 example.com\n").data,
        ("0.0.0.0 localhost\n").data]
      ⟨("example.com").data :: reservedHostnames, 1,
        [(some ("example.com").data, ("0.0.0.0 example.com\n").data)]⟩
      (by decide)⟩

/-- Claim C5.  A line that reaches the rule-processing path (it is not passed
through verbatim) and contains the literal substring `::1` anywhere leaves the
loop state untouched: nothing is written, for every exclusion configuration,
minimise flag and target IP. -/
theorem loopback_drop (cfg : RunCfg) (mx wv : List Char → Bool) (st : MState)
    (raw : List Char) (st' : MState) (h : lineStep cfg mx wv st raw = some st')
    (hsub : hasSub [':', ':', '1'] raw = true) (hnp : ¬ isPassThru cfg raw) :
    st' = st := by
  have hsub2 : hasSub [':', ':', '1'] (preprocessLine raw) = true :=
    @hasSub_preprocess [':', ':', '1'] '1' (by decide) (by decide)
      (by decide) (by decide) raw hsub
  have hrule : ruleStep cfg mx wv st (preprocessLine raw) = st := by
    simp only [ruleStep]
    rw [if_pos hsub2]
  simp only [lineStep] at h
  split at h
  · rw [hrule] at h
    exact (Option.some_inj.mp h).symm
  · rename_i hmin
    split at h
    · exact absurd h (by simp)
    · rename_i c cs hline
      split at h
      · rename_i hcond
        exact absurd ⟨Bool.not_eq_true _ ▸ hmin, by rw [hline]; exact hcond⟩ hnp
      · rw [hrule] at h
        exact (Option.some_inj.mp h).symm

/-- Witness for claim C5: `::1 localhost foo` reaches the rule path and leaves
the state unchanged. -/
theorem loopback_drop_witness :
    initState ⟨0, false, false, ("0.0.0.0").data⟩ =
      initState ⟨0, false, false, ("0.0.0.0").data⟩ :=
  loopback_drop ⟨0, false, false, ("0.0.0.0").data⟩ (fun _ => false) (fun _ => false)
    (initState ⟨0, false, false, ("0.0.0.0").data⟩) ("::1 localhost foo\n").data
    (initState ⟨0, false, false, ("0.0.0.0").data⟩) (by decide) (by decide)
    (fun hc => absurd (show ':' = '#' ∨ isSpc ':' = true from hc.2) (by decide))

/-- Claim C6, counterexample.  With minimise off, the rule line
` 0.0.0.0 evil.com` — which is neither blank nor a comment — is written to the
output verbatim (with no hostname key), because the code inspects only the first
character of the line. -/
theorem passthrough_claim_fails :
    lineStep ⟨0, false, false, ("0.0.0.0").data⟩ (fun _ => false) (fun _ => false)
        (initState ⟨0, false, false, ("0.0.0.0").data⟩) (" 0.0.0.0 evil.com\n").data =
      some ⟨reservedHostnames, 0, [(none, (" 0.0.0.0 evil.com\n").data)]⟩ ∧
    (∃ c ∈ (" 0.0.0.0 evil.com\n").data, isSpc c = false) ∧
    (" 0.0.0.0 evil.com\n").data.head? ≠ some '#' := by
  refine ⟨by decide, by decide, by decide⟩

/-- Claim C6, amended.  With minimise off (and the loop not crashing on the
line), a line is emitted verbatim — recorded without a hostname key — exactly
when the first character of the preprocessed line is `#` or whitespace: blank
lines and comments pass through, but so does any rule line that begins with
whitespace. -/
theorem passthrough_iff_first_char (cfg : RunCfg) (mx wv : List Char → Bool)
    (st : MState) (raw : List Char) (st' : MState)
    (hmin : cfg.minimise = false) (h : lineStep cfg mx wv st raw = some st') :
    (∃ c cs, preprocessLine raw = c :: cs ∧ (c = '#' ∨ isSpc c = true)) ↔
      st' = { st with out := st.out ++ [(none, preprocessLine raw)] } := by
  simp only [lineStep] at h
  split at h
  · rename_i hmint
    rw [hmin] at hmint
    exact absurd hmint (by decide)
  · split at h
    · exact absurd h (by simp)
    · rename_i c cs hline
      split at h
      · rename_i hcond
        refine iff_of_true ⟨c, cs, hline, hcond⟩ ?_
        exact (Option.some_inj.mp h).symm
      · rename_i hcond
        apply iff_of_false
        · rintro ⟨c', cs', hline', hcond'⟩
          rw [hline] at hline'
          obtain ⟨rfl, rfl⟩ := List.cons.injEq .. ▸ hline'.symm
          exact hcond hcond'
        · intro hst
          have hr : ruleStep cfg mx wv st (preprocessLine raw) = st' := Option.some_inj.mp h
          rcases ruleStep_cases cfg mx wv st (preprocessLine raw) with h2 | ⟨k, o, _, h2⟩
          · rw [h2] at hr
            rw [← hr] at hst
            have hlen := congrArg (fun s => s.out.length) hst
            simp at hlen
          · rw [h2] at hr
            rw [← hr] at hst
            have hout := congrArg MState.out hst
            simp only at hout
            have := List.append_cancel_left hout
            simp at this

/-- Witness for the amended claim C6 at a comment line. -/
theorem passthrough_iff_first_char_witness :
    (∃ c cs, preprocessLine ("# a comment\n").data = c :: cs ∧ (c = '#' ∨ isSpc c = true)) ↔
      (⟨reservedHostnames, 0, [(none, ("# a comment\n").data)]⟩ : MState) =
        { initState ⟨0, false, false, ("0.0.0.0").data⟩ with
            out := (initState ⟨0, false, false, ("0.0.0.0").data⟩).out ++
              [(none, preprocessLine ("# a comment\n").data)] } :=
  passthrough_iff_first_char ⟨0, false, false, ("0.0.0.0").data⟩ (fun _ => false)
    (fun _ => false) (initState ⟨0, false, false, ("0.0.0.0").data⟩)
    ("# a comment\n").data ⟨reservedHostnames, 0, [(none, ("# a comment\n").data)]⟩
    rfl (by decide)

/-! List utilities for the encoder proof. -/

theorem dropWhile_stops {p : Char → Bool} {a : List Char} {x : Char} (r : List Char)
    (ha : ∀ c ∈ a, p c = true) (hx : p x = false) :
    (a ++ x :: r).dropWhile p = x :: r := by
  induction a with
  | nil => simp [List.dropWhile_cons, hx]
  | cons c a ih =>
    rw [List.cons_append, List.dropWhile_cons, if_pos (ha c (List.mem_cons_self c a))]
    exact ih fun d hd => ha d (List.mem_cons_of_mem c hd)

theorem takeWhile_append_all {p : Char → Bool} {a : List Char} (b : List Char)
    (ha : ∀ c ∈ a, p c = true) :
    (a ++ b).takeWhile p = a ++ b.takeWhile p := by
  induction a with
  | nil => simp
  | cons c a ih =>
    rw [List.cons_append, List.takeWhile_cons, if_pos (ha c (List.mem_cons_self c a)),
      ih fun d hd => ha d (List.mem_cons_of_mem c hd)]
    rfl

theorem dropWhile_append_all {p : Char → Bool} {a : List Char} (b : List Char)
    (ha : ∀ c ∈ a, p c = true) :
    (a ++ b).dropWhile p = b.dropWhile p := by
  induction a with
  | nil => simp
  | cons c a ih =>
    rw [List.cons_append, List.dropWhile_cons, if_pos (ha c (List.mem_cons_self c a))]
    exact ih fun d hd => ha d (List.mem_cons_of_mem c hd)

theorem intercalate_one (s : Char) (a : List Char) :
    List.intercalate [s] [a] = a := by
  simp [List.intercalate]

theorem intercalate_cons2 (s : Char) (a b : List Char) (L : List (List Char)) :
    List.intercalate [s] (a :: b :: L) = a ++ s :: List.intercalate [s] (b :: L) := by
  simp [List.intercalate, List.intersperse_cons₂]

theorem intercalate_cons_ne (s : Char) (a : List Char) {L : List (List Char)}
    (h : L ≠ []) :
    List.intercalate [s] (a :: L) = a ++ s :: List.intercalate [s] L := by
  cases L with
  | nil => exact absurd rfl h
  | cons b L' => exact intercalate_cons2 s a b L'

theorem splitOn_not_mem {s : Char} {l : List Char} (h : ∀ c ∈ l, c ≠ s) :
    l.splitOn s = [l] :=
  List.splitOnP_eq_single _ _ fun x hx => by simp [h x hx]

theorem splitOn_boundary {s : Char} {a : List Char} (r : List Char)
    (h : ∀ c ∈ a, c ≠ s) :
    (a ++ s :: r).splitOn s = a :: r.splitOn s :=
  List.splitOnP_first _ _ (fun x hx => by simp [h x hx]) s (by simp) r

theorem splitOn_repl (s : Char) (m : Nat) (rest : List Char) :
    (List.replicate m s ++ rest).splitOn s =
      List.replicate m ([] : List Char) ++ rest.splitOn s := by
  induction m with
  | zero => simp
  | succ m ih =>
    rw [List.replicate_succ, List.cons_append]
    show List.splitOnP (· == s) (s :: (List.replicate m s ++ rest)) = _
    rw [List.splitOnP_cons, if_pos (by simp)]
    rw [show List.splitOnP (· == s) (List.replicate m s ++ rest) =
      (List.replicate m s ++ rest).splitOn s from rfl, ih]
    simp [List.replicate_succ]

theorem walkIdx_repl (m : Nat) {x : List Char} (r : List (List Char)) (i : Nat)
    (hx : x ≠ []) :
    walkIdx (List.replicate m [] ++ x :: r) i = some (i + m) := by
  induction m generalizing i with
  | zero => simp [walkIdx, List.isEmpty_iff, hx]
  | succ m ih =>
    rw [List.replicate_succ, List.cons_append]
    show walkIdx ([] :: (List.replicate m [] ++ x :: r)) i = some (i + (m + 1))
    rw [walkIdx, if_pos (show ([] : List Char).isEmpty = true from rfl), ih (i + 1)]
    congr 1
    omega

theorem getD_repl (m : Nat) (x : List Char) (r : List (List Char)) :
    (List.replicate m ([] : List Char) ++ x :: r).getD m [] = x := by
  induction m with
  | zero => simp
  | succ m ih =>
    rw [List.replicate_succ, List.cons_append, List.getD_cons_succ, ih]

theorem set_repl (m : Nat) (x v : List Char) (r : List (List Char)) :
    (List.replicate m ([] : List Char) ++ x :: r).set m v =
      List.replicate m ([] : List Char) ++ v :: r := by
  induction m with
  | zero => simp
  | succ m ih =>
    rw [List.replicate_succ, List.cons_append, List.set_cons_succ, ih]
    simp

theorem intercalate_repl_mid (s : Char) (m : Nat) (x y : List Char)
    (T : List (List Char)) :
    List.intercalate [s] (x :: (List.replicate m [] ++ y :: T)) =
      x ++ s :: (List.replicate m s ++ List.intercalate [s] (y :: T)) := by
  induction m generalizing x with
  | zero => simp [intercalate_cons2]
  | succ m ih =>
    rw [List.replicate_succ, List.cons_append, intercalate_cons2, ih []]
    simp [List.replicate_succ]

theorem findIdx_boundary {t : Char} {a : List Char} (r : List Char)
    (h : ∀ c ∈ a, c ≠ t) :
    pyFindIdx t (a ++ t :: r) = some a.length := by
  induction a with
  | nil => simp [pyFindIdx]
  | cons c a ih =>
    rw [List.cons_append]
    simp only [pyFindIdx]
    rw [if_neg (h c (List.mem_cons_self c a)), ih fun d hd => h d (List.mem_cons_of_mem c hd)]
    simp

theorem findIdx_lower {t : Char} {a b : List Char} {j : Nat}
    (h : pyFindIdx t (a ++ b) = some j) (ha : ∀ c ∈ a, c ≠ t) : a.length ≤ j := by
  induction a generalizing j with
  | nil => simp
  | cons c a ih =>
    rw [List.cons_append] at h
    simp only [pyFindIdx] at h
    rw [if_neg (ha c (List.mem_cons_self c a))] at h
    obtain ⟨j', hj', rfl⟩ := Option.map_eq_some'.mp h
    have := ih hj' fun d hd => ha d (List.mem_cons_of_mem c hd)
    simp only [List.length_cons]
    omega

theorem det_sep {ip : List Char} (rest : List Char) {sep : Char}
    (hsep : sep = ' ' ∨ sep = '\t') (hip : ∀ c ∈ ip, c ≠ ' ' ∧ c ≠ '\t') :
    determineSeparator (ip ++ sep :: rest) = some sep := by
  rcases hsep with rfl | rfl
  · have hfs : pyFindIdx ' ' (ip ++ ' ' :: rest) = some ip.length :=
      findIdx_boundary rest fun c hc => (hip c hc).1
    cases hft : pyFindIdx '\t' (ip ++ ' ' :: rest) with
    | none => simp [determineSeparator, hft, hfs]
    | some j =>
      have hft2 : pyFindIdx '\t' ((ip ++ [' ']) ++ rest) = some j := by
        rw [show (ip ++ [' ']) ++ rest = ip ++ ' ' :: rest by simp]
        exact hft
      have hge : (ip ++ [' ']).length ≤ j := by
        refine findIdx_lower hft2 ?_
        intro c hc
        rcases List.mem_append.mp hc with hc | hc
        · exact (hip c hc).2
        · rw [List.mem_singleton.mp hc]
          decide
      simp only [determineSeparator, hft, hfs]
      rw [if_pos (by simp at hge; omega)]
  · have hft : pyFindIdx '\t' (ip ++ '\t' :: rest) = some ip.length :=
      findIdx_boundary rest fun c hc => (hip c hc).2
    cases hfs : pyFindIdx ' ' (ip ++ '\t' :: rest) with
    | none => simp [determineSeparator, hft, hfs]
    | some j =>
      have hfs2 : pyFindIdx ' ' ((ip ++ ['\t']) ++ rest) = some j := by
        rw [show (ip ++ ['\t']) ++ rest = ip ++ '\t' :: rest by simp]
        exact hfs
      have hge : (ip ++ ['\t']).length ≤ j := by
        refine findIdx_lower hfs2 ?_
        intro c hc
        rcases List.mem_append.mp hc with hc | hc
        · exact (hip c hc).1
        · rw [List.mem_singleton.mp hc]
          decide
      simp only [determineSeparator, hft, hfs]
      rw [if_neg (by simp at hge; omega)]

/-! Evaluations of the IDNA encoder on the token shapes of the encoder claim. -/

theorem encode_gdomain_pad (u : List Char) (hu : ∀ c ∈ u, c = ' ' ∨ c = '\t')
    (hlen : u.length ≤ 60) : encodeIDNA (gDomain ++ u) = some (gEncoded ++ u) := by
  have hgd : gDomain = (Char.ofNat 0x262 :: ("oogle").data) ++ '.' :: ("com").data := by
    decide
  have hshape : gDomain ++ u =
      (Char.ofNat 0x262 :: ("oogle").data) ++ '.' :: (("com").data ++ u) := by
    rw [hgd]
    simp
  have hne : ¬ (gDomain ++ u = []) := by
    rw [hshape]
    simp
  have hnascii : (gDomain ++ u).all (fun c => decide (c.toNat < 128)) = false := by
    rw [List.all_append]
    have h0 : gDomain.all (fun c => decide (c.toNat < 128)) = false := by decide
    rw [h0]
    rfl
  have husp : ∀ c ∈ u, dotChar c = false ∧ c.toNat < 128 := by
    intro c hc
    rcases hu c hc with rfl | rfl <;> exact ⟨by decide, by decide⟩
  have hno : ∀ x ∈ ("com").data ++ u, dotChar x = false := by
    intro x hx
    rcases List.mem_append.mp hx with hx | hx
    · fin_cases hx <;> decide
    · exact (husp x hx).1
  have hsplit : (gDomain ++ u).splitOnP dotChar =
      [Char.ofNat 0x262 :: ("oogle").data, ("com").data ++ u] := by
    rw [hshape]
    rw [List.splitOnP_first dotChar _ (by decide) '.' (by decide) (("com").data ++ u)]
    rw [List.splitOnP_eq_single dotChar _ (fun x hx => by simp [hno x hx])]
  have hA : toASCII (Char.ofNat 0x262 :: ("oogle").data) = some (("xn--oogle-wmc").data) := by
    decide
  have hlu : (("com").data ++ u).length = 3 + u.length := by
    simp
    omega
  have hB : toASCII (("com").data ++ u) = some (("com").data ++ u) := by
    unfold toASCII
    rw [if_pos, if_pos]
    · refine ⟨by simp, ?_⟩
      omega
    · rw [List.all_append]
      have h1 : (("com").data).all (fun c => decide (c.toNat < 128)) = true := by decide
      rw [h1, Bool.true_and, List.all_eq_true]
      simpa using fun c hc => (husp c hc).2
  have hgE : gEncoded = ("xn--oogle-wmc").data ++ '.' :: ("com").data := by decide
  unfold encodeIDNA
  rw [if_neg hne, if_neg (by rw [hnascii]; exact Bool.false_ne_true)]
  simp only [hsplit]
  rw [show ([Char.ofNat 0x262 :: ("oogle").data, ("com").data ++ u]).getLastD
      ([] : List Char) = ("com").data ++ u from rfl]
  have hbne : (("com").data ++ u).isEmpty = false := rfl
  simp only [hbne, Bool.false_eq_true, if_false]
  simp only [List.mapM_cons, List.mapM_nil, hA, hB, Option.pure_def, Option.bind_eq_bind,
    Option.some_bind, Option.some_inj]
  rw [intercalate_cons2, intercalate_one, hgE]
  simp

theorem encode_ascii_unchanged (z : List Char)
    (hz : ∀ c ∈ z, c.toNat < 128 ∧ c ≠ '.') (hlen : z.length ≤ 60) :
    encodeIDNA (gEncoded ++ z) = some (gEncoded ++ z) := by
  have hgE : gEncoded = ("xn--oogle-wmc").data ++ '.' :: ("com").data := by decide
  have hshape : gEncoded ++ z =
      ("xn--oogle-wmc").data ++ '.' :: (("com").data ++ z) := by
    rw [hgE]
    simp
  have hne : ¬ (gEncoded ++ z = []) := by
    rw [hshape]
    simp
  have hascii : (gEncoded ++ z).all (fun c => decide (c.toNat < 128)) = true := by
    rw [List.all_append]
    have h1 : gEncoded.all (fun c => decide (c.toNat < 128)) = true := by decide
    rw [h1, Bool.true_and, List.all_eq_true]
    simpa using fun c hc => (hz c hc).1
  have hnd : ∀ x ∈ ("com").data ++ z, x ≠ '.' := by
    intro x hx
    rcases List.mem_append.mp hx with hx | hx
    · fin_cases hx <;> decide
    · exact (hz x hx).2
  have hsplit : (gEncoded ++ z).splitOn '.' =
      [("xn--oogle-wmc").data, ("com").data ++ z] := by
    rw [hshape]
    rw [splitOn_boundary _ (by decide)]
    rw [splitOn_not_mem hnd]
  have hlz : (("com").data ++ z).length = 3 + z.length := by
    simp
    omega
  unfold encodeIDNA
  rw [if_neg hne, if_pos hascii]
  simp only [hsplit]
  rw [if_pos]
  constructor
  · rw [show ([("xn--oogle-wmc").data, ("com").data ++ z]).dropLast =
      [("xn--oogle-wmc").data] from rfl]
    decide
  · rw [show ([("xn--oogle-wmc").data, ("com").data ++ z]).getLastD
      ([] : List Char) = ("com").data ++ z from rfl]
    omega

theorem mem_split_first {x : Char} {l : List Char} (h : x ∈ l) :
    ∃ a b, l = a ++ x :: b ∧ ∀ c ∈ a, c ≠ x := by
  induction l with
  | nil => cases h
  | cons c r ih =>
    by_cases hc : c = x
    · refine ⟨[], r, ?_, by simp⟩
      rw [hc]
      rfl
    · have hxr : x ∈ r := by
        rcases List.mem_cons.mp h with h | h
        · exact absurd h.symm hc
        · exact h
      rcases ih hxr with ⟨a, b, rfl, ha⟩
      refine ⟨c :: a, b, rfl, ?_⟩
      intro d hd
      rcases List.mem_cons.mp hd with rfl | hd
      · exact hc
      · exact ha d hd

theorem dropWhile_first_false {p : Char → Bool} {l : List Char} {d : Char} {r : List Char}
    (h : l.dropWhile p = d :: r) : p d = false := by
  induction l with
  | nil => simp at h
  | cons c cl ih =>
    rw [List.dropWhile_cons] at h
    by_cases hpc : p c = true
    · rw [if_pos hpc] at h
      exact ih h
    · rw [if_neg hpc] at h
      injection h with h1 h2
      simp only [Bool.not_eq_true] at hpc
      exact h1 ▸ hpc

theorem tokenStep_no_hash (u : List Char) (hu : ∀ c ∈ u, c = ' ' ∨ c = '\t')
    (hlen : u.length ≤ 60) :
    idnaTokenStep (gDomain ++ u) = some (gEncoded ++ u) := by
  have hnh : ¬ ('#' ∈ gDomain ++ u) := by
    intro h
    rcases List.mem_append.mp h with h | h
    · exact absurd h (by decide)
    · rcases hu _ h with h' | h' <;> exact absurd h' (by decide)
  simp only [idnaTokenStep]
  rw [if_neg hnh]
  exact encode_gdomain_pad u hu hlen

theorem tokenStep_hash (w t1 : List Char) (hw : ∀ c ∈ w, c = ' ' ∨ c = '\t')
    (hwlen : w.length ≤ 8)
    (ht : ∀ c ∈ t1, c.toNat < 128 ∧ c ≠ '#' ∧ c ≠ '.') (htlen : t1.length ≤ 50) :
    idnaTokenStep (gDomain ++ (w ++ '#' :: t1)) = some (gEncoded ++ (w ++ '#' :: t1)) := by
  have hgw : ∀ c ∈ gDomain ++ w, (c != '#') = true := by
    intro c hc
    rcases List.mem_append.mp hc with hc' | hc'
    · exact (show ∀ x ∈ gDomain, (x != '#') = true by decide) c hc'
    · rcases hw c hc' with rfl | rfl <;> decide
  have hshape : gDomain ++ (w ++ '#' :: t1) = (gDomain ++ w) ++ '#' :: t1 := by simp
  have hhash : '#' ∈ gDomain ++ (w ++ '#' :: t1) := by simp
  have htake : (gDomain ++ (w ++ '#' :: t1)).takeWhile (fun c => c != '#') = gDomain ++ w := by
    rw [hshape]
    exact takeWhile_stops t1 hgw (by decide)
  have hdrop : (gDomain ++ (w ++ '#' :: t1)).dropWhile (fun c => c != '#') = '#' :: t1 := by
    rw [hshape]
    exact dropWhile_stops t1 hgw (by decide)
  have hw60 : w.length ≤ 60 := le_trans hwlen (by decide)
  have hE1 : encodeIDNA (gDomain ++ w) = some (gEncoded ++ w) := encode_gdomain_pad w hw hw60
  have hz : ∀ c ∈ (w ++ '#' :: t1), c.toNat < 128 ∧ c ≠ '.' := by
    intro c hc
    rcases List.mem_append.mp hc with hc' | hc'
    · rcases hw c hc' with rfl | rfl <;> exact ⟨by decide, by decide⟩
    · rcases List.mem_cons.mp hc' with rfl | hc'
      · exact ⟨by decide, by decide⟩
      · exact ⟨(ht c hc').1, (ht c hc').2.2⟩
  have hzlen : (w ++ '#' :: t1).length ≤ 60 := by
    simp only [List.length_append, List.length_cons]
    omega
  have hE2 : encodeIDNA (gEncoded ++ (w ++ '#' :: t1)) = some (gEncoded ++ (w ++ '#' :: t1)) :=
    encode_ascii_unchanged (w ++ '#' :: t1) hz hzlen
  have hstep : idnaTokenStep (gDomain ++ (w ++ '#' :: t1)) =
      encodeIDNA ((gEncoded ++ w) ++ '#' :: t1) := by
    simp only [idnaTokenStep]
    rw [if_pos hhash, htake, hE1, hdrop]
  rw [hstep, show (gEncoded ++ w) ++ '#' :: t1 = gEncoded ++ (w ++ '#' :: t1) from by simp]
  exact hE2

/-- Skeleton run of `domain_to_idna` on a line `<ip><sep-run><domain-token><rest>`:
the first token after the address is `gDomain ++ u'` (the sep-free head of the
trailing text), the per-token step rewrites it to `gEncoded ++ u'`, and the
rejoin restores everything else. -/
theorem domainToIdna_run (ip u' R : List Char) (sep : Char) (k' : Nat)
    (hip : ip ≠ []) (hiph : ∀ c ∈ ip, c ≠ ' ' ∧ c ≠ '\t' ∧ c ≠ '#')
    (hsep : sep = ' ' ∨ sep = '\t')
    (hu' : ∀ c ∈ u', c ≠ sep)
    (hR : R = [] ∨ ∃ r, R = sep :: r)
    (hpipe : idnaTokenStep (gDomain ++ u') = some (gEncoded ++ u')) :
    domainToIdna (ip ++ (List.replicate (k' + 1) sep ++ (gDomain ++ (u' ++ R)))) =
      some (ip ++ (List.replicate (k' + 1) sep ++ (gEncoded ++ (u' ++ R)))) := by
  have hipws : ∀ c ∈ ip, c ≠ ' ' ∧ c ≠ '\t' := fun c hc => ⟨(hiph c hc).1, (hiph c hc).2.1⟩
  have hipsep : ∀ c ∈ ip, c ≠ sep := by
    intro c hc
    rcases hsep with rfl | rfl
    · exact (hipws c hc).1
    · exact (hipws c hc).2
  have hline : ip ++ (List.replicate (k' + 1) sep ++ (gDomain ++ (u' ++ R))) =
      ip ++ sep :: (List.replicate k' sep ++ (gDomain ++ (u' ++ R))) := by
    rw [List.replicate_succ]
    rfl
  have hhead : ¬ ((ip ++ sep :: (List.replicate k' sep ++ (gDomain ++ (u' ++ R)))).head? =
      some '#') := by
    obtain ⟨c0, ip0, rfl⟩ := List.exists_cons_of_ne_nil hip
    intro h
    simp only [List.cons_append, List.head?_cons, Option.some_inj] at h
    exact (hiph c0 (List.mem_cons_self c0 ip0)).2.2 h
  have hds : determineSeparator (ip ++ sep :: (List.replicate k' sep ++ (gDomain ++ (u' ++ R)))) =
      some sep :=
    det_sep _ hsep hipws
  have hgds : ∀ c ∈ gDomain ++ u', c ≠ sep := by
    intro c hc
    rcases List.mem_append.mp hc with hc' | hc'
    · rcases hsep with rfl | rfl
      · exact (show ∀ x ∈ gDomain, x ≠ ' ' by decide) c hc'
      · exact (show ∀ x ∈ gDomain, x ≠ '\t' by decide) c hc'
    · exact hu' c hc'
  obtain ⟨TAIL, hT1, hT2⟩ : ∃ T, (gDomain ++ (u' ++ R)).splitOn sep = (gDomain ++ u') :: T ∧
      ∀ v : List Char, List.intercalate [sep] (v :: T) = v ++ R := by
    rcases hR with rfl | ⟨r, rfl⟩
    · refine ⟨[], ?_, ?_⟩
      · rw [List.append_nil]
        exact splitOn_not_mem hgds
      · intro v
        rw [intercalate_one, List.append_nil]
    · refine ⟨r.splitOn sep, ?_, ?_⟩
      · rw [show gDomain ++ (u' ++ (sep :: r)) = (gDomain ++ u') ++ sep :: r from by simp]
        exact splitOn_boundary r hgds
      · intro v
        rw [intercalate_cons_ne sep v (show r.splitOn sep ≠ [] from List.splitOnP_ne_nil _ r),
          List.intercalate_splitOn r sep]
  have hparts : (ip ++ sep :: (List.replicate k' sep ++ (gDomain ++ (u' ++ R)))).splitOn sep =
      ip :: (List.replicate k' ([] : List Char) ++ (gDomain ++ u') :: TAIL) := by
    rw [splitOn_boundary _ hipsep, splitOn_repl, hT1]
  have hwalk : walkIdx (List.replicate k' ([] : List Char) ++ (gDomain ++ u') :: TAIL) 1 =
      some (1 + k') :=
    walkIdx_repl k' TAIL 1 (by simp [gDomain])
  have hgetd : (ip :: (List.replicate k' ([] : List Char) ++ (gDomain ++ u') :: TAIL)).getD
      (1 + k') [] = gDomain ++ u' := by
    rw [Nat.add_comm, List.getD_cons_succ]
    exact getD_repl k' _ TAIL
  have hset : (ip :: (List.replicate k' ([] : List Char) ++ (gDomain ++ u') :: TAIL)).set
      (1 + k') (gEncoded ++ u') =
      ip :: (List.replicate k' ([] : List Char) ++ (gEncoded ++ u') :: TAIL) := by
    rw [Nat.add_comm, List.set_cons_succ, set_repl]
  have hfin : List.intercalate [sep]
      (ip :: (List.replicate k' ([] : List Char) ++ (gEncoded ++ u') :: TAIL)) =
      ip ++ (List.replicate (k' + 1) sep ++ (gEncoded ++ (u' ++ R))) := by
    rw [intercalate_repl_mid, hT2 (gEncoded ++ u')]
    simp [List.replicate_succ]
  rw [hline]
  simp only [domainToIdna]
  rw [if_neg hhead, hds]
  simp only [hparts, List.drop_one, List.tail_cons, hwalk, hgetd, hpipe, hset, hfin]

/-- Claim C9.  On a line made of a non-empty IPv4-shaped address (digits and
dots), a run of one or more separators (all spaces or all tabs), the domain
`ɢoogle.com`, and an optional trailing comment (whitespace, then `#`, then
ASCII text without `#` or `.`), `domain_to_idna` returns the same line with
exactly the domain replaced by `xn--oogle-wmc.com`: the address, every
separator character, and the comment marker and text are unchanged. -/
theorem domain_to_idna_encodes (ip w t : List Char) (sep : Char) (k : Nat) (cmt : List Char)
    (hip : ip ≠ []) (hipc : ∀ c ∈ ip, c.isDigit = true ∨ c = '.')
    (hsep : sep = ' ' ∨ sep = '\t') (hk : 1 ≤ k)
    (hcmt : cmt = [] ∨ (cmt = w ++ '#' :: t ∧ (∀ c ∈ w, c = ' ' ∨ c = '\t') ∧ w.length ≤ 8 ∧
      (∀ c ∈ t, c.toNat < 128 ∧ c ≠ '#' ∧ c ≠ '.') ∧ t.length ≤ 50)) :
    domainToIdna (ip ++ (List.replicate k sep ++ (gDomain ++ cmt))) =
      some (ip ++ (List.replicate k sep ++ (gEncoded ++ cmt))) := by
  obtain ⟨k', rfl⟩ : ∃ j, k = j + 1 := ⟨k - 1, by omega⟩
  have hiph : ∀ c ∈ ip, c ≠ ' ' ∧ c ≠ '\t' ∧ c ≠ '#' := by
    intro c hc
    rcases hipc c hc with hd | rfl
    · refine ⟨?_, ?_, ?_⟩ <;> (intro h; rw [h] at hd; exact absurd hd (by decide))
    · exact ⟨by decide, by decide, by decide⟩
  rcases hcmt with rfl | ⟨rfl, hw, hwlen, ht, htlen⟩
  · simpa using domainToIdna_run ip [] [] sep k' hip hiph hsep (by simp) (Or.inl rfl)
      (tokenStep_no_hash [] (by simp) (by simp))
  · by_cases hsw : sep ∈ w
    · obtain ⟨w1, w2, rfl, hw1⟩ := mem_split_first hsw
      have hw1st : ∀ c ∈ w1, c = ' ' ∨ c = '\t' := fun c hc =>
        hw c (List.mem_append.mpr (Or.inl hc))
      have hw1len : w1.length ≤ 60 := by
        simp only [List.length_append, List.length_cons] at hwlen
        omega
      have hrun := domainToIdna_run ip w1 (sep :: (w2 ++ '#' :: t)) sep k' hip hiph hsep
        hw1 (Or.inr ⟨w2 ++ '#' :: t, rfl⟩) (tokenStep_no_hash w1 hw1st hw1len)
      rw [show (w1 ++ sep :: w2) ++ '#' :: t = w1 ++ (sep :: (w2 ++ '#' :: t)) from by simp]
      exact hrun
    · have htsplit : t.takeWhile (fun c => c != sep) ++ t.dropWhile (fun c => c != sep) = t :=
        List.takeWhile_append_dropWhile _ t
      have hu'1 : ∀ c ∈ w ++ '#' :: t.takeWhile (fun c => c != sep), c ≠ sep := by
        intro c hc
        rcases List.mem_append.mp hc with hc' | hc'
        · exact fun h => hsw (h ▸ hc')
        · rcases List.mem_cons.mp hc' with rfl | hc'
          · rcases hsep with rfl | rfl <;> decide
          · simpa using List.mem_takeWhile_imp hc'
      have hRcase : t.dropWhile (fun c => c != sep) = [] ∨
          ∃ r, t.dropWhile (fun c => c != sep) = sep :: r := by
        cases hd : t.dropWhile (fun c => c != sep) with
        | nil => exact Or.inl rfl
        | cons d r =>
          have hdeq : d = sep := by simpa using dropWhile_first_false hd
          exact Or.inr ⟨r, by rw [hdeq]⟩
      have ht1 : ∀ c ∈ t.takeWhile (fun c => c != sep), c.toNat < 128 ∧ c ≠ '#' ∧ c ≠ '.' :=
        fun c hc => ht c (List.Sublist.mem hc (List.takeWhile_sublist _))
      have ht1len : (t.takeWhile (fun c => c != sep)).length ≤ 50 :=
        le_trans (List.Sublist.length_le (List.takeWhile_sublist _)) htlen
      have hrun := domainToIdna_run ip (w ++ '#' :: t.takeWhile (fun c => c != sep))
        (t.dropWhile (fun c => c != sep)) sep k' hip hiph hsep hu'1 hRcase
        (tokenStep_hash w (t.takeWhile (fun c => c != sep)) hw hwlen ht1 ht1len)
      have hsh : w ++ '#' :: t =
          (w ++ '#' :: t.takeWhile (fun c => c != sep)) ++ t.dropWhile (fun c => c != sep) := by
        conv_lhs => rw [← htsplit]
        simp
      rw [hsh]
      exact hrun

/-- Witness for C9 at the repository's own test vector
`0.0.0.0 ɢoogle.com # Hello World`. -/
theorem domain_to_idna_encodes_witness :
    domainToIdna (("0.0.0.0").data ++
        (List.replicate 1 ' ' ++ (gDomain ++ (" # Hello World").data))) =
      some (("0.0.0.0").data ++
        (List.replicate 1 ' ' ++ (gEncoded ++ (" # Hello World").data))) :=
  domain_to_idna_encodes ("0.0.0.0").data [' '] (" Hello World").data ' ' 1
    (" # Hello World").data (by decide) (by decide) (Or.inl rfl) (by decide)
    (Or.inr ⟨by decide, by decide, by decide, by decide, by decide⟩)

end HostsSpec
